import Mathlib

set_option maxRecDepth 4000

/- Verification of the 8x8 bicolor LED-matrix firmware (matrix.c).

   Shallow embedding: the frame buffer is a family of 16-bit column words
   (modelled as `Nat`, with `% 2^16` masking written out exactly where the
   C code truncates); the Life engine `life`, the button state machine
   `GetButtons`, the column-scanner ISR, the fade logic of `do_life` and
   the quote picker of `hello_world` are transliterated from the source.
   Machine-integer operations are mapped to `Nat`/`Int` operations with
   explicit masks (`&&& 3`, `% 16`, `^^^ 255`, `% 256`) mirroring the
   C-level integer widths. -/

/-! ## Activity classification constants (matrix.c lines 172-174) -/

def DEAD : Nat := 0

def STEADY : Nat := 1

def ACTIVE : Nat := 2

/-- numeric value of a decidable proposition, embedding C's `!!` idiom -/
def b2n (p : Prop) [Decidable p] : Nat := if p then 1 else 0

/-! ## The Life engine (matrix.c lines 175-233)

A generation is 8 column words (`Fin 8 → Nat`, each word meant as uint16).
A cell occupies bits `j, j+1` of its column word, `j = 2 * row`. -/

/-- The next state of the cell at column `i`, bit offset `j`, computed exactly
as in the inner loop of `life`: `L/R` wrap the column index mod 8 (uint8
`(i-1) & 7`), `U/D` wrap the bit offset mod 16 (uint8 `(j-2) & 15`,
written `(j+14) % 16`), a neighbor counts when its 2-bit field is non-zero. -/
def nextstateAt (src : Fin 8 → Nat) (i : Fin 8) (j : Nat) : Nat :=
  let curstate := (src i >>> j) &&& 3
  let L : Fin 8 := i - 1
  let R : Fin 8 := i + 1
  let U := (j + 14) % 16
  let D := (j + 2) % 16
  let neighbors :=
    b2n (src L &&& (3 <<< U) ≠ 0) + b2n (src L &&& (3 <<< j) ≠ 0) +
    b2n (src L &&& (3 <<< D) ≠ 0) + b2n (src i &&& (3 <<< U) ≠ 0) +
    b2n (src i &&& (3 <<< D) ≠ 0) + b2n (src R &&& (3 <<< U) ≠ 0) +
    b2n (src R &&& (3 <<< j) ≠ 0) + b2n (src R &&& (3 <<< D) ≠ 0)
  if curstate ≠ 0 then
    if neighbors < 2 ∨ neighbors > 3 then 0
    else if curstate = 1 then 3
    else 2
  else if neighbors = 3 then 1
  else 0

/-- the bit offsets `j = 0, 2, ..., 14` visited by the inner loop -/
def evens : List Nat := [0, 2, 4, 6, 8, 10, 12, 14]

/-- One column of the next generation: the inner loop's read-modify-write of
`dst[i]` (`dst[i] &= ~(3 << j); dst[i] |= nextstate << j` on uint16,
the complement taken within 16 bits). `d0` is the old content of `dst[i]`. -/
def lifeCol (src : Fin 8 → Nat) (i : Fin 8) (d0 : Nat) : Nat :=
  evens.foldl
    (fun d j => (d &&& (65535 ^^^ (3 <<< j))) ||| (nextstateAt src i j <<< j)) d0

/-- `life(src, dst)`: returns the new destination columns together with the
returned classification (`DEAD`/`STEADY`/`ACTIVE` with the 7-dead-columns
override). `d0` holds the previous contents of the destination buffer. -/
def life (src d0 : Fin 8 → Nat) : (Fin 8 → Nat) × Nat :=
  let dst := fun i => lifeCol src i (d0 i)
  let s := (List.finRange 8).foldl
    (fun (p : Nat × Nat) i =>
      let colstate := if dst i = 0 then DEAD else if dst i = src i then STEADY else ACTIVE
      (max p.1 colstate, p.2 + b2n (colstate = DEAD))) (DEAD, 0)
  (dst, if s.2 = 7 then STEADY else s.1)

/-! ## Claim-side (spec-worded) formulation of the update rule, for the
refinement comparison in C1: cells addressed by (column, row), neighbor
indices wrapping mod 8. -/

/-- the 2-bit cell value of board `b` at column `i`, row `r` -/
def cellAt (b : Fin 8 → Nat) (i r : Fin 8) : Nat := (b i >>> (2 * r.val)) % 4

/-- Claim-side neighbor count: the number of the 8 toroidal neighbors (row and
column wrapping mod 8, via `Fin 8` arithmetic) whose 2-bit value is non-zero. -/
def specNeighbors (b : Fin 8 → Nat) (i r : Fin 8) : Nat :=
  b2n (cellAt b (i - 1) (r - 1) ≠ 0) + b2n (cellAt b (i - 1) r ≠ 0) +
  b2n (cellAt b (i - 1) (r + 1) ≠ 0) + b2n (cellAt b i (r - 1) ≠ 0) +
  b2n (cellAt b i (r + 1) ≠ 0) + b2n (cellAt b (i + 1) (r - 1) ≠ 0) +
  b2n (cellAt b (i + 1) r ≠ 0) + b2n (cellAt b (i + 1) (r + 1) ≠ 0)

/-- Claim-side next cell state: a live cell survives exactly with 2 or 3 live
neighbors, a surviving green cell (1) turns orange (3), any other survivor
turns red (2); a dead cell becomes green (1) exactly with 3 neighbors. -/
def specNextstate (b : Fin 8 → Nat) (i r : Fin 8) : Nat :=
  let cur := cellAt b i r
  let n := specNeighbors b i r
  if cur ≠ 0 then (if n = 2 ∨ n = 3 then (if cur = 1 then 3 else 2) else 0)
  else if n = 3 then 1
  else 0

/-! ## Bit-level toolkit -/

theorem mod4_ext {x y : Nat} (h0 : x.testBit 0 = y.testBit 0)
    (h1 : x.testBit 1 = y.testBit 1) : x % 4 = y % 4 := by
  have h : x % 2 ^ 2 = y % 2 ^ 2 := by
    apply Nat.eq_of_testBit_eq
    intro t
    rw [Nat.testBit_mod_two_pow, Nat.testBit_mod_two_pow]
    match t with
    | 0 => simp [h0]
    | 1 => simp [h1]
    | (t + 2) =>
      have ht : ¬(t + 2 < 2) := by omega
      simp [ht]
  simpa using h

theorem testBit_three (m : Nat) : (3 : Nat).testBit m = decide (m < 2) := by
  have h : (3 : Nat) = 2 ^ 2 - 1 := by norm_num
  rw [h, Nat.testBit_two_pow_sub_one]

theorem testBit_ffff (m : Nat) : (65535 : Nat).testBit m = decide (m < 16) := by
  have h : (65535 : Nat) = 2 ^ 16 - 1 := by norm_num
  rw [h, Nat.testBit_two_pow_sub_one]

theorem and3_eq_mod4 (x : Nat) : x &&& 3 = x % 4 := by
  apply Nat.eq_of_testBit_eq
  intro t
  have h4 : (4 : Nat) = 2 ^ 2 := by norm_num
  rw [Nat.testBit_and, testBit_three, h4, Nat.testBit_mod_two_pow, Bool.and_comm]

theorem and_three_shift (x k : Nat) :
    x &&& (3 <<< k) = ((x >>> k) % 4) <<< k := by
  apply Nat.eq_of_testBit_eq
  intro t
  have h4 : (4 : Nat) = 2 ^ 2 := by norm_num
  rw [Nat.testBit_and, Nat.testBit_shiftLeft, Nat.testBit_shiftLeft, testBit_three,
    h4, Nat.testBit_mod_two_pow, Nat.testBit_shiftRight]
  by_cases hkt : k ≤ t
  · have he : k + (t - k) = t := by omega
    rw [he]
    cases x.testBit t <;> simp [hkt, Bool.and_comm]
  · simp [hkt]

theorem and_three_shift_eq_zero (x k : Nat) :
    x &&& (3 <<< k) = 0 ↔ (x >>> k) % 4 = 0 := by
  rw [and_three_shift, Nat.shiftLeft_eq]
  have hp : 0 < 2 ^ k := Nat.pow_pos (by norm_num)
  constructor
  · intro h
    rcases Nat.mul_eq_zero.mp h with h' | h'
    · exact h'
    · omega
  · intro h
    rw [h, Nat.zero_mul]

/-- bits `j` and `j+1` of the slot write `dst &= ~(3<<j); dst |= n<<j` hold `n` -/
theorem write_hit_bit (d n j b : Nat) (hb : b < 2) (hj : j ≤ 14) :
    (((d &&& (65535 ^^^ (3 <<< j))) ||| (n <<< j))).testBit (j + b) = n.testBit b := by
  rw [Nat.testBit_or, Nat.testBit_and, Nat.testBit_xor, Nat.testBit_shiftLeft,
    Nat.testBit_shiftLeft, testBit_three, testBit_ffff]
  have e1 : j + b < 16 := by omega
  have e2 : j ≤ j + b := Nat.le_add_right _ _
  have e3 : j + b - j = b := by omega
  rw [e3]
  simp [e1, e2, hb]

/-- bits away from the written slot are untouched by the slot write -/
theorem write_miss_bit (d n j k b : Nat) (hn : n < 4) (hb : b < 2) (hk : k ≤ 14)
    (hjk : j + 2 ≤ k ∨ k + 2 ≤ j) :
    (((d &&& (65535 ^^^ (3 <<< j))) ||| (n <<< j))).testBit (k + b) = d.testBit (k + b) := by
  rw [Nat.testBit_or, Nat.testBit_and, Nat.testBit_xor, Nat.testBit_shiftLeft,
    Nat.testBit_shiftLeft, testBit_three, testBit_ffff]
  have e1 : k + b < 16 := by omega
  rcases hjk with h | h
  · have e2 : j ≤ k + b := by omega
    have e3 : ¬(k + b - j < 2) := by omega
    have hle : (4 : Nat) ≤ 2 ^ (k + b - j) := by
      calc (4 : Nat) = 2 ^ 2 := by norm_num
        _ ≤ 2 ^ (k + b - j) := Nat.pow_le_pow_right (by norm_num) (by omega)
    have e4 : n.testBit (k + b - j) = false := Nat.testBit_lt_two_pow (by omega)
    simp [e1, e2, e3, e4]
  · have e2 : ¬(j ≤ k + b) := by omega
    simp [e1, e2]

theorem write_hit (d n j : Nat) (hn : n < 4) (hj : j ≤ 14) :
    (((d &&& (65535 ^^^ (3 <<< j))) ||| (n <<< j)) >>> j) % 4 = n := by
  conv_rhs => rw [← Nat.mod_eq_of_lt hn]
  apply mod4_ext
  · rw [Nat.testBit_shiftRight, write_hit_bit d n j 0 (by norm_num) hj]
  · rw [Nat.testBit_shiftRight, write_hit_bit d n j 1 (by norm_num) hj]

theorem write_miss (d n j k : Nat) (hn : n < 4) (hk : k ≤ 14)
    (hjk : j + 2 ≤ k ∨ k + 2 ≤ j) :
    (((d &&& (65535 ^^^ (3 <<< j))) ||| (n <<< j)) >>> k) % 4 = (d >>> k) % 4 := by
  apply mod4_ext
  · rw [Nat.testBit_shiftRight, Nat.testBit_shiftRight,
      write_miss_bit d n j k 0 hn (by norm_num) hk hjk]
  · rw [Nat.testBit_shiftRight, Nat.testBit_shiftRight,
      write_miss_bit d n j k 1 hn (by norm_num) hk hjk]

theorem nextstateAt_lt_four (src : Fin 8 → Nat) (i : Fin 8) (j : Nat) :
    nextstateAt src i j < 4 := by
  simp only [nextstateAt]
  split_ifs <;> norm_num

/-- a slot not targeted by any of the remaining writes keeps its value -/
theorem foldl_write_miss (f : Nat → Nat) (hf : ∀ j, f j < 4) :
    ∀ (js : List Nat) (d0 k : Nat), k ≤ 14 → (∀ j ∈ js, j + 2 ≤ k ∨ k + 2 ≤ j) →
      ((js.foldl (fun d j => (d &&& (65535 ^^^ (3 <<< j))) ||| (f j <<< j)) d0) >>> k) % 4
        = (d0 >>> k) % 4
  | [], _, _, _, _ => rfl
  | j :: js, d0, k, hk, hsep => by
    rw [List.foldl_cons,
      foldl_write_miss f hf js _ k hk (fun j' hj' => hsep j' (List.mem_cons_of_mem _ hj'))]
    exact write_miss d0 (f j) j k (hf j) hk (hsep j (List.mem_cons_self _ _))

/-- the written slot ends up holding its write's value, provided the loop's
slots are pairwise separated by at least 2 bit positions -/
theorem foldl_write_hit (f : Nat → Nat) (hf : ∀ j, f j < 4) :
    ∀ (js : List Nat) (d0 k : Nat), k ≤ 14 → k ∈ js →
      js.Pairwise (fun a b => a + 2 ≤ b) →
      ((js.foldl (fun d j => (d &&& (65535 ^^^ (3 <<< j))) ||| (f j <<< j)) d0) >>> k) % 4
        = f k
  | [], _, _, _, hmem, _ => absurd hmem (List.not_mem_nil _)
  | j :: js, d0, k, hk, hmem, hpw => by
    rw [List.foldl_cons]
    rcases List.mem_cons.mp hmem with h | h
    · subst h
      rw [foldl_write_miss f hf js _ k hk
        (fun j' hj' => Or.inr (List.rel_of_pairwise_cons hpw hj'))]
      exact write_hit d0 (f k) k (hf k) hk
    · exact foldl_write_hit f hf js _ k hk h hpw.of_cons

theorem lifeCol_read (src : Fin 8 → Nat) (i : Fin 8) (d0 : Nat) (r : Fin 8) :
    ((lifeCol src i d0) >>> (2 * r.val)) % 4 = nextstateAt src i (2 * r.val) := by
  have hmem : 2 * r.val ∈ evens := by fin_cases r <;> decide
  have hk : 2 * r.val ≤ 14 := by have := r.isLt; omega
  exact foldl_write_hit (fun j => nextstateAt src i j)
    (fun j => nextstateAt_lt_four src i j) evens d0 (2 * r.val) hk hmem (by decide)

theorem b2n_congr {p q : Prop} [Decidable p] [Decidable q] (h : p ↔ q) :
    b2n p = b2n q := by
  simp only [b2n, h]

theorem b2n_and_three (x k : Nat) :
    b2n (x &&& (3 <<< k) ≠ 0) = b2n ((x >>> k) % 4 ≠ 0) :=
  b2n_congr (not_congr (by rw [and_three_shift_eq_zero]))

theorem nextstateAt_eq_spec (src : Fin 8 → Nat) (i r : Fin 8) :
    nextstateAt src i (2 * r.val) = specNextstate src i r := by
  have hm1 : ((r - 1 : Fin 8)).val = (r.val + 7) % 8 := by fin_cases r <;> rfl
  have hp1 : ((r + 1 : Fin 8)).val = (r.val + 1) % 8 := by fin_cases r <;> rfl
  have hr8 : r.val < 8 := r.isLt
  have hU : (2 * r.val + 14) % 16 = 2 * ((r - 1 : Fin 8)).val := by rw [hm1]; omega
  have hD : (2 * r.val + 2) % 16 = 2 * ((r + 1 : Fin 8)).val := by rw [hp1]; omega
  simp only [nextstateAt, specNextstate, specNeighbors, cellAt, hU, hD, b2n_and_three,
    and3_eq_mod4]
  split_ifs <;> omega

/-- C1: for every source generation and every cell of the 8x8 torus, `life`
computes the next 2-bit cell state by the spec's rule: live neighbors are the
8 toroidal neighbors with non-zero 2-bit value; a live cell survives exactly
with 2 or 3 neighbors, a surviving green (1) cell becomes orange (3) and any
other survivor red (2); a dead cell becomes green (1) exactly with 3
neighbors. -/
theorem life_next_cell (src d0 : Fin 8 → Nat) (i r : Fin 8) :
    cellAt ((life src d0).1) i r = specNextstate src i r := by
  show (((life src d0).1 i) >>> (2 * r.val)) % 4 = _
  have h1 : (life src d0).1 i = lifeCol src i (d0 i) := rfl
  rw [h1, lifeCol_read, nextstateAt_eq_spec]

/-! ## Classification characterization (for C2, C3) -/

/-- per-column state as computed at the end of each column pass -/
def colstateOf (src d0 : Fin 8 → Nat) (i : Fin 8) : Nat :=
  if lifeCol src i (d0 i) = 0 then DEAD
  else if lifeCol src i (d0 i) = src i then STEADY
  else ACTIVE

theorem foldl_scan_spec {α : Type} (g : α → Nat) :
    ∀ (l : List α) (a c : Nat),
      l.foldl (fun (p : Nat × Nat) i => (max p.1 (g i), p.2 + b2n (g i = 0))) (a, c)
        = (l.foldl (fun m i => max m (g i)) a, c + l.countP (fun i => decide (g i = 0)))
  | [], a, c => by simp
  | x :: l, a, c => by
    rw [List.foldl_cons, foldl_scan_spec g l (max a (g x)) (c + b2n (g x = 0)),
      List.foldl_cons, List.countP_cons]
    simp only [b2n, decide_eq_true_eq, Prod.mk.injEq, true_and]
    omega

theorem foldl_max_le {α : Type} (g : α → Nat) :
    ∀ (l : List α) (a x : Nat), a ≤ x → (∀ i ∈ l, g i ≤ x) →
      l.foldl (fun m i => max m (g i)) a ≤ x
  | [], _, _, ha, _ => ha
  | i :: l, a, x, ha, hl => by
    rw [List.foldl_cons]
    exact foldl_max_le g l _ x (max_le ha (hl i (List.mem_cons_self _ _)))
      (fun j hj => hl j (List.mem_cons_of_mem _ hj))

theorem le_foldl_max {α : Type} (g : α → Nat) :
    ∀ (l : List α) (a : Nat), a ≤ l.foldl (fun m i => max m (g i)) a
  | [], _ => le_refl _
  | i :: l, a => by
    rw [List.foldl_cons]
    exact le_trans (le_max_left _ _) (le_foldl_max g l _)

theorem mem_le_foldl_max {α : Type} (g : α → Nat) :
    ∀ (l : List α) (a : Nat) (i : α), i ∈ l → g i ≤ l.foldl (fun m j => max m (g j)) a
  | [], _, _, him => absurd him (List.not_mem_nil _)
  | j :: l, a, i, him => by
    rw [List.foldl_cons]
    rcases List.mem_cons.mp him with h | h
    · subst h
      exact le_trans (le_max_right _ _) (le_foldl_max g l _)
    · exact mem_le_foldl_max g l _ i h

theorem write_step_lt (d n j : Nat) (hj : j ≤ 14) (hn : n < 4) :
    (d &&& (65535 ^^^ (3 <<< j))) ||| (n <<< j) < 65536 := by
  have hpj : 2 ^ j ≤ 2 ^ 14 := Nat.pow_le_pow_right (by norm_num) hj
  have h1 : d &&& (65535 ^^^ (3 <<< j)) < 65536 := by
    have hx : 65535 ^^^ (3 <<< j) < 65536 := by
      have h16 : (65536 : Nat) = 2 ^ 16 := by norm_num
      rw [h16]
      refine Nat.xor_lt_two_pow (by norm_num) ?_
      rw [Nat.shiftLeft_eq]
      have : (2 : Nat) ^ 14 = 16384 := by norm_num
      omega
    exact lt_of_le_of_lt (Nat.and_le_right) hx
  have h2 : n <<< j < 65536 := by
    rw [Nat.shiftLeft_eq]
    have : (2 : Nat) ^ 14 = 16384 := by norm_num
    nlinarith
  have h16 : (65536 : Nat) = 2 ^ 16 := by norm_num
  rw [h16] at h1 h2 ⊢
  exact Nat.or_lt_two_pow h1 h2

theorem foldl_write_lt (f : Nat → Nat) (hf : ∀ j, f j < 4) :
    ∀ (js : List Nat) (d : Nat), d < 65536 → (∀ j ∈ js, j ≤ 14) →
      js.foldl (fun d j => (d &&& (65535 ^^^ (3 <<< j))) ||| (f j <<< j)) d < 65536
  | [], _, hd, _ => hd
  | j :: js, d, _, hj => by
    rw [List.foldl_cons]
    exact foldl_write_lt f hf js _
      (write_step_lt d (f j) j (hj j (List.mem_cons_self _ _)) (hf j))
      (fun j' hj' => hj j' (List.mem_cons_of_mem _ hj'))

theorem lifeCol_lt (src : Fin 8 → Nat) (i : Fin 8) (d0 : Nat) :
    lifeCol src i d0 < 65536 := by
  have h : evens = 0 :: [2, 4, 6, 8, 10, 12, 14] := rfl
  rw [lifeCol, h, List.foldl_cons]
  exact foldl_write_lt (fun j => nextstateAt src i j) (fun j => nextstateAt_lt_four src i j)
    _ _ (write_step_lt d0 _ 0 (by norm_num) (nextstateAt_lt_four src i 0)) (by decide)

theorem nextstateAt_zero (i : Fin 8) (j : Nat) :
    nextstateAt (fun _ => 0) i j = 0 := by
  simp [nextstateAt, b2n]

/-- a 16-bit word whose eight 2-bit slots are all zero is zero -/
theorem word_zero_of_slots_zero (w : Nat) (hw : w < 65536)
    (h : ∀ r : Fin 8, (w >>> (2 * r.val)) % 4 = 0) : w = 0 := by
  apply Nat.eq_of_testBit_eq
  intro t
  rw [Nat.zero_testBit]
  by_cases ht : t < 16
  · have hq : t / 2 < 8 := by omega
    have hs := h ⟨t / 2, hq⟩
    have h2 : t % 2 < 2 := by omega
    have h3 : 2 * (t / 2) + t % 2 = t := by omega
    have hb : ((w >>> (2 * (t / 2))) % 4).testBit (t % 2) = w.testBit t := by
      have h4 : (4 : Nat) = 2 ^ 2 := by norm_num
      rw [h4, Nat.testBit_mod_two_pow, Nat.testBit_shiftRight, h3]
      simp [h2]
    rw [← hb, hs, Nat.zero_testBit]
  · refine Nat.testBit_lt_two_pow ?_
    have h16 : (65536 : Nat) = 2 ^ 16 := by norm_num
    calc w < 2 ^ 16 := by omega
      _ ≤ 2 ^ t := Nat.pow_le_pow_right (by norm_num) (by omega)

theorem life_zero_src (d0 : Fin 8 → Nat) (i : Fin 8) :
    (life (fun _ => 0) d0).1 i = 0 := by
  have h1 : (life (fun _ => 0) d0).1 i = lifeCol (fun _ => 0) i (d0 i) := rfl
  rw [h1]
  apply word_zero_of_slots_zero _ (lifeCol_lt _ _ _)
  intro r
  rw [lifeCol_read, nextstateAt_zero]

theorem life_snd_shape (src d0 : Fin 8 → Nat) :
    (life src d0).2 =
      if (List.finRange 8).countP (fun i => decide (colstateOf src d0 i = 0)) = 7 then STEADY
      else (List.finRange 8).foldl (fun m i => max m (colstateOf src d0 i)) 0 := by
  show (if ((List.finRange 8).foldl
        (fun (p : Nat × Nat) i =>
          (max p.1 (colstateOf src d0 i), p.2 + b2n (colstateOf src d0 i = 0)))
        (0, 0)).2 = 7 then STEADY
      else ((List.finRange 8).foldl
        (fun (p : Nat × Nat) i =>
          (max p.1 (colstateOf src d0 i), p.2 + b2n (colstateOf src d0 i = 0)))
        (0, 0)).1) = _
  rw [foldl_scan_spec]
  norm_num

theorem colstateOf_eq_zero (src d0 : Fin 8 → Nat) (i : Fin 8) :
    colstateOf src d0 i = 0 ↔ lifeCol src i (d0 i) = 0 := by
  unfold colstateOf
  split_ifs with h1 h2 <;> simp [DEAD, STEADY, ACTIVE, h1]

theorem colstateOf_le_one (src d0 : Fin 8 → Nat) (i : Fin 8) :
    colstateOf src d0 i ≤ 1 ↔ (lifeCol src i (d0 i) = 0 ∨ lifeCol src i (d0 i) = src i) := by
  unfold colstateOf
  split_ifs with h1 h2
  · simp [DEAD, h1]
  · simp [STEADY, h2]
  · simp [ACTIVE, h1, h2]

theorem colstateOf_le_two (src d0 : Fin 8 → Nat) (i : Fin 8) :
    colstateOf src d0 i ≤ 2 := by
  unfold colstateOf
  split_ifs <;> simp [DEAD, STEADY, ACTIVE]

/-- exact characterization of the classification `life` returns -/
theorem life_class_iff (src d0 : Fin 8 → Nat) :
    (life src d0).2 =
      if ∀ i, (life src d0).1 i = 0 then DEAD
      else if 7 ≤ (List.finRange 8).countP (fun i => decide ((life src d0).1 i = 0))
          ∨ ∀ i, (life src d0).1 i = 0 ∨ (life src d0).1 i = src i then STEADY
      else ACTIVE := by
  have hdst : ∀ i, (life src d0).1 i = lifeCol src i (d0 i) := fun _ => rfl
  have hcnt : (List.finRange 8).countP (fun i => decide ((life src d0).1 i = 0))
      = (List.finRange 8).countP (fun i => decide (colstateOf src d0 i = 0)) := by
    refine List.countP_congr (fun i _ => ?_)
    show decide ((life src d0).1 i = 0) = true ↔ decide (colstateOf src d0 i = 0) = true
    simp only [decide_eq_true_eq]
    rw [hdst i, colstateOf_eq_zero]
  rw [life_snd_shape]
  by_cases hA : ∀ i, lifeCol src i (d0 i) = 0
  · have hAll : ∀ i ∈ List.finRange 8, (fun i => decide (colstateOf src d0 i = 0)) i = true := by
      intro i _
      simp only [decide_eq_true_eq]
      exact (colstateOf_eq_zero src d0 i).mpr (hA i)
    have h8 : (List.finRange 8).countP (fun i => decide (colstateOf src d0 i = 0)) = 8 := by
      rw [List.countP_eq_length.mpr hAll, List.length_finRange]
    rw [h8]
    have hM : (List.finRange 8).foldl (fun m i => max m (colstateOf src d0 i)) 0 = 0 := by
      refine Nat.le_antisymm ?_ (Nat.zero_le _)
      refine foldl_max_le _ _ _ _ (le_refl 0) (fun i _ => ?_)
      exact le_of_eq ((colstateOf_eq_zero src d0 i).mpr (hA i))
    rw [if_neg (by norm_num), hM, if_pos (fun i => (hdst i).trans (hA i))]
    rfl
  · have hA' : ¬(∀ i, (life src d0).1 i = 0) := by
      intro h
      exact hA (fun i => (hdst i).symm.trans (h i))
    rw [if_neg hA']
    obtain ⟨i0, hi0⟩ := not_forall.mp hA
    have hcnt_lt : (List.finRange 8).countP (fun i => decide (colstateOf src d0 i = 0)) < 8 := by
      refine lt_of_le_of_ne (le_trans (List.countP_le_length _) (le_of_eq (List.length_finRange 8))) ?_
      intro h8
      have := List.countP_eq_length.mp (by rw [List.length_finRange]; exact h8)
      have hc := this i0 (List.mem_finRange i0)
      simp only [decide_eq_true_eq] at hc
      exact hi0 ((colstateOf_eq_zero src d0 i0).mp hc)
    by_cases hC7 : (List.finRange 8).countP (fun i => decide (colstateOf src d0 i = 0)) = 7
    · rw [if_pos hC7, if_pos (Or.inl (by rw [hcnt, hC7]))]
    · rw [if_neg hC7]
      have hno7 : ¬(7 ≤ (List.finRange 8).countP (fun i => decide ((life src d0).1 i = 0))) := by
        rw [hcnt]
        omega
      by_cases hB : ∀ i, lifeCol src i (d0 i) = 0 ∨ lifeCol src i (d0 i) = src i
      · have hM1 : (List.finRange 8).foldl (fun m i => max m (colstateOf src d0 i)) 0 = 1 := by
          refine Nat.le_antisymm ?_ ?_
          · exact foldl_max_le _ _ _ _ (by norm_num)
              (fun i _ => (colstateOf_le_one src d0 i).mpr (hB i))
          · have hgi0 : colstateOf src d0 i0 = 1 := by
              have hle := (colstateOf_le_one src d0 i0).mpr (hB i0)
              have hne := (colstateOf_eq_zero src d0 i0).not.mpr hi0
              omega
            calc 1 = colstateOf src d0 i0 := hgi0.symm
              _ ≤ _ := mem_le_foldl_max _ _ _ i0 (List.mem_finRange i0)
        rw [hM1, if_pos (Or.inr (fun i => by rw [hdst i]; exact hB i))]
        rfl
      · obtain ⟨i1, hi1⟩ := not_forall.mp hB
        push_neg at hi1
        have hM2 : (List.finRange 8).foldl (fun m i => max m (colstateOf src d0 i)) 0 = 2 := by
          refine Nat.le_antisymm ?_ ?_
          · exact foldl_max_le _ _ _ _ (by norm_num) (fun i _ => colstateOf_le_two src d0 i)
          · have hgi1 : colstateOf src d0 i1 = 2 := by
              unfold colstateOf
              rw [if_neg hi1.1, if_neg hi1.2]
              rfl
            calc 2 = colstateOf src d0 i1 := hgi1.symm
              _ ≤ _ := mem_le_foldl_max _ _ _ i1 (List.mem_finRange i1)
        have hBor : ¬(7 ≤ (List.finRange 8).countP (fun i => decide ((life src d0).1 i = 0))
            ∨ ∀ i, (life src d0).1 i = 0 ∨ (life src d0).1 i = src i) := by
          rintro (h | h)
          · exact hno7 h
          · exact hB (fun i => by rw [← hdst i]; exact h i)
        rw [hM2, if_neg hBor]
        rfl

/-! ## Fixture boards -/

/-- the all-dead board -/
def z8 : Fin 8 → Nat := fun _ => 0

/-- a 2x2 block of red cells in columns 0-1, rows 0-1: a still life -/
def blkBoard : Fin 8 → Nat := ![10, 10, 0, 0, 0, 0, 0, 0]

/-- the block plus a lone red cell at column 4, row 4 (which dies) -/
def blkPlusLone : Fin 8 → Nat := ![10, 10, 0, 0, 512, 0, 0, 0]

/-- C2 (amended): the classification is DEAD when every new column is zero;
otherwise STEADY when at least 7 columns of the new generation are fully dead
or every column is either fully dead or bit-for-bit equal to its source
column; otherwise ACTIVE.  An all-dead source yields an all-dead new
generation classified DEAD. -/
theorem life_classification (src d0 : Fin 8 → Nat) :
    ((life src d0).2 =
      if ∀ i, (life src d0).1 i = 0 then DEAD
      else if 7 ≤ (List.finRange 8).countP (fun i => decide ((life src d0).1 i = 0))
          ∨ ∀ i, (life src d0).1 i = 0 ∨ (life src d0).1 i = src i then STEADY
      else ACTIVE)
    ∧ (∀ i, (life z8 d0).1 i = 0) ∧ (life z8 d0).2 = DEAD := by
  have hz : ∀ i, (life z8 d0).1 i = 0 := fun i => life_zero_src d0 i
  refine ⟨life_class_iff src d0, hz, ?_⟩
  rw [life_class_iff z8 d0, if_pos hz]

/-- C2 counterexample: for the block-plus-lone-cell board the new generation
is neither all dead, nor column-wise identical to the source, and has only 6
fully dead columns, yet `life` returns STEADY where the claim demands
ACTIVE. -/
theorem life_classification_cex :
    (life blkPlusLone z8).2 = STEADY
    ∧ ¬(∀ i, (life blkPlusLone z8).1 i = 0)
    ∧ ¬(∀ i, (life blkPlusLone z8).1 i = blkPlusLone i)
    ∧ (List.finRange 8).countP (fun i => decide ((life blkPlusLone z8).1 i = 0)) = 6
    ∧ STEADY ≠ ACTIVE := by
  refine ⟨by decide, by decide, by decide, by decide, by decide⟩

/-- C3 counterexample: the all-dead board is a bit-for-bit fixed point of
`life`, but is classified DEAD, not STEADY. -/
theorem life_fixed_point_cex :
    (∀ i, (life z8 z8).1 i = z8 i) ∧ (life z8 z8).2 ≠ STEADY := by
  refine ⟨by decide, by decide⟩

/-- C3 (amended): if the new generation equals the source bit-for-bit and the
source is not all dead, the classification is STEADY. -/
theorem life_fixed_point_steady (src d0 : Fin 8 → Nat)
    (hfix : ∀ i, (life src d0).1 i = src i) (hnz : ∃ i, src i ≠ 0) :
    (life src d0).2 = STEADY := by
  rw [life_class_iff]
  obtain ⟨i0, hi0⟩ := hnz
  have h1 : ¬(∀ i, (life src d0).1 i = 0) := by
    intro hall
    exact hi0 ((hfix i0).symm.trans (hall i0))
  rw [if_neg h1, if_pos (Or.inr (fun i => Or.inr (hfix i)))]

/-- witness for C3's amended theorem: the still-life block board -/
theorem life_fixed_point_steady_wit : (life blkBoard z8).2 = STEADY :=
  life_fixed_point_steady blkBoard z8 (by decide) ⟨0, by decide⟩

/-! ## Button state machine (matrix.c lines 235-275)

Two active-low button lines are read as a 2-bit pattern (3 = none pressed).
`GetButtons` keeps two static uint8 variables; `~` is the 8-bit complement
`^^^ 255`.  The C `repeat` counter is named `rpt` here. -/

def BUTTON_LEFT : Nat := 1

def BUTTON_RIGHT : Nat := 2

def BUTTON_HOLD : Nat := 16

def REPEAT_THRESHOLD : Nat := 20

structure BtnState where
  prevState : Nat
  rpt : Nat
deriving DecidableEq

/-- the initial values of the static variables (`prevState = 0xff`) -/
def btnInit : BtnState := ⟨255, 0⟩

/-- one poll of `GetButtons`, fed the freshly sampled 2-bit `curState`;
returns the updated static state and the returned event byte -/
def GetButtons (s : BtnState) (curState : Nat) : BtnState × Nat :=
  if REPEAT_THRESHOLD ≤ s.rpt then
    (⟨curState, if curState = 3 then 0 else s.rpt⟩, 0)
  else if curState ≠ s.prevState then
    (⟨curState, s.rpt⟩, (s.prevState ^^^ 255) &&& curState)
  else if curState ≠ 3 then
    (⟨s.prevState, s.rpt + 1⟩,
      if s.rpt + 1 = REPEAT_THRESHOLD then BUTTON_HOLD ||| ((curState &&& 3) ^^^ 255) else 0)
  else (s, 0)

/-- iterate `GetButtons` over a list of sampled patterns, collecting the
returned events -/
def runBtns : BtnState → List Nat → List Nat × BtnState
  | s, [] => ([], s)
  | s, c :: cs =>
    let p := GetButtons s c
    let q := runBtns p.1 cs
    (p.2 :: q.1, q.2)

theorem runBtns_append (s : BtnState) (xs ys : List Nat) :
    runBtns s (xs ++ ys)
      = ((runBtns s xs).1 ++ (runBtns (runBtns s xs).2 ys).1,
         (runBtns (runBtns s xs).2 ys).2) := by
  induction xs generalizing s with
  | nil => simp [runBtns]
  | cons c cs ih =>
    simp only [List.cons_append, runBtns, List.append_eq]
    rw [ih]

theorem GB_held (p r cur : Nat) (h : REPEAT_THRESHOLD ≤ r) :
    GetButtons ⟨p, r⟩ cur = (⟨cur, if cur = 3 then 0 else r⟩, 0) := by
  simp only [GetButtons]
  rw [if_pos h]

theorem GB_change (p r cur : Nat) (h : r < REPEAT_THRESHOLD) (hne : cur ≠ p) :
    GetButtons ⟨p, r⟩ cur = (⟨cur, r⟩, (p ^^^ 255) &&& cur) := by
  simp only [GetButtons]
  rw [if_neg (by omega), if_pos hne]

theorem GB_same (p r cur : Nat) (h : r < REPEAT_THRESHOLD) (heq : cur = p) (h3 : cur ≠ 3) :
    GetButtons ⟨p, r⟩ cur
      = (⟨p, r + 1⟩,
         if r + 1 = REPEAT_THRESHOLD then BUTTON_HOLD ||| ((cur &&& 3) ^^^ 255) else 0) := by
  simp only [GetButtons]
  rw [if_neg (by omega), if_neg (by simp [heq]), if_pos h3]

theorem GB_idle (p r cur : Nat) (h : r < REPEAT_THRESHOLD) (heq : cur = p) (h3 : cur = 3) :
    GetButtons ⟨p, r⟩ cur = (⟨p, r⟩, 0) := by
  simp only [GetButtons]
  rw [if_neg (by omega), if_neg (by simp [heq]), if_neg (by simp [h3])]

/-- while the same non-idle pattern keeps being sampled below the threshold,
every poll returns no event and only increments the counter -/
theorem runBtns_same_lt (c : Nat) (h3 : c ≠ 3) :
    ∀ (k r : Nat), r + k < REPEAT_THRESHOLD →
      runBtns ⟨c, r⟩ (List.replicate k c) = (List.replicate k 0, ⟨c, r + k⟩)
  | 0, r, _ => by simp [runBtns]
  | k + 1, r, hrk => by
    rw [List.replicate_succ, List.replicate_succ]
    have hs : GetButtons ⟨c, r⟩ c = (⟨c, r + 1⟩, 0) := by
      rw [GB_same c r c (by omega) rfl h3, if_neg (by omega)]
    simp only [runBtns, hs]
    rw [runBtns_same_lt c h3 k (r + 1) (by omega)]
    have e : r + 1 + k = r + (k + 1) := by omega
    rw [e]

/-- in the held state (counter at the threshold) polling the same non-idle
pattern returns no event and leaves the state unchanged -/
theorem runBtns_held (c : Nat) (h3 : c ≠ 3) :
    ∀ (m : Nat),
      runBtns ⟨c, REPEAT_THRESHOLD⟩ (List.replicate m c)
        = (List.replicate m 0, ⟨c, REPEAT_THRESHOLD⟩)
  | 0 => by simp [runBtns]
  | m + 1 => by
    rw [List.replicate_succ, List.replicate_succ]
    have hs : GetButtons ⟨c, REPEAT_THRESHOLD⟩ c = (⟨c, REPEAT_THRESHOLD⟩, 0) := by
      rw [GB_held c REPEAT_THRESHOLD c (le_refl _), if_neg h3]
    simp only [runBtns, hs]
    rw [runBtns_held c h3 m]

/-- C4 counterexample: after the idle-settling poll, a left-button tap
(pattern 3, then 2 for three polls, then 3) returns no event on the poll that
transitions into the down state (second poll) and returns the press event
`BUTTON_LEFT` on the release poll; the repeat counter is 2, not 0, after the
release. -/
theorem GetButtons_tap_cex :
    (runBtns btnInit [3, 2, 2, 2, 3]).1 = [0, 0, 0, 0, 1]
    ∧ (runBtns btnInit [3, 2, 2, 2, 3]).2.rpt ≠ 0
    ∧ (1 : Nat) = BUTTON_LEFT := by
  refine ⟨by decide, by decide, by decide⟩

/-- C4 (amended): a single tap of pattern `c` (down for `1 + k` polls, then
released) starting from an idle state with counter `r0`, with `r0 + k` below
the hold threshold, returns exactly one non-zero event, namely the press
event `~prev & cur = (c ^^^ 255) &&& 3` identifying the tapped button(s),
emitted on the release poll; the down-transition poll and all held polls
return 0, and the repeat counter ends at `r0 + k` (it is not reset). -/
theorem GetButtons_tap (c k r0 : Nat) (hc : c < 3) (hr : r0 + k < REPEAT_THRESHOLD) :
    runBtns ⟨3, r0⟩ (c :: (List.replicate k c ++ [3]))
      = (0 :: (List.replicate k 0 ++ [(c ^^^ 255) &&& 3]), ⟨3, r0 + k⟩)
    ∧ (c ^^^ 255) &&& 3 ≠ 0 := by
  have hth : (REPEAT_THRESHOLD : Nat) = 20 := rfl
  constructor
  · have hstep1 : GetButtons ⟨3, r0⟩ c = (⟨c, r0⟩, 0) := by
      rw [GB_change 3 r0 c (by omega) (by omega)]
      have h252 : (3 ^^^ 255) &&& c = 0 := by interval_cases c <;> rfl
      rw [h252]
    have hmid : runBtns ⟨c, r0⟩ (List.replicate k c) = (List.replicate k 0, ⟨c, r0 + k⟩) :=
      runBtns_same_lt c (by omega) k r0 hr
    have hlast : runBtns ⟨c, r0 + k⟩ [3] = ([(c ^^^ 255) &&& 3], ⟨3, r0 + k⟩) := by
      have h := GB_change c (r0 + k) 3 (by omega) (by omega)
      simp only [runBtns, h]
    have h1 : runBtns ⟨3, r0⟩ (c :: (List.replicate k c ++ [3]))
        = (0 :: (runBtns ⟨c, r0⟩ (List.replicate k c ++ [3])).1,
           (runBtns ⟨c, r0⟩ (List.replicate k c ++ [3])).2) := by
      simp only [runBtns, hstep1]
    rw [h1, runBtns_append, hmid, hlast]
  · interval_cases c <;> decide

/-- witness for the amended C4 theorem at `c = 2`, `k = 3`, `r0 = 0` -/
theorem GetButtons_tap_wit :
    runBtns ⟨3, 0⟩ (2 :: (List.replicate 3 2 ++ [3]))
      = (0 :: (List.replicate 3 0 ++ [(2 ^^^ 255) &&& 3]), ⟨3, 0 + 3⟩)
    ∧ (2 ^^^ 255) &&& 3 ≠ 0 :=
  GetButtons_tap 2 3 0 (by norm_num) (by decide)

/-- C7: sampling the same non-idle pattern `c` long enough (the transition
poll plus `REPEAT_THRESHOLD` identical polls) emits exactly one hold event,
tagged with the held (low-reading) buttons; every further poll while any
button stays down returns no event, and so does the release poll, after
which the counter is 0 and the machine is idle again.  In the held state
every poll whatsoever returns no event. -/
theorem GetButtons_hold_once (c m : Nat) (hc : c < 3) :
    runBtns ⟨3, 0⟩ (List.replicate 21 c ++ (List.replicate m c ++ [3]))
      = (List.replicate 20 0
           ++ ((BUTTON_HOLD ||| ((c &&& 3) ^^^ 255)) :: (List.replicate m 0 ++ [0])),
         ⟨3, 0⟩)
    ∧ BUTTON_HOLD ||| ((c &&& 3) ^^^ 255) ≠ 0
    ∧ (∀ (p cur : Nat), (GetButtons ⟨p, REPEAT_THRESHOLD⟩ cur).2 = 0) := by
  refine ⟨?_, by interval_cases c <;> decide, fun p cur => by rw [GB_held p _ cur (le_refl _)]⟩
  have hpre : runBtns ⟨3, 0⟩ (List.replicate 21 c)
      = (List.replicate 20 0 ++ [BUTTON_HOLD ||| ((c &&& 3) ^^^ 255)], ⟨c, 20⟩) := by
    interval_cases c <;> decide
  have hmid : runBtns ⟨c, 20⟩ (List.replicate m c) = (List.replicate m 0, ⟨c, 20⟩) :=
    runBtns_held c (by omega) m
  have hlast : runBtns ⟨c, 20⟩ [3] = ([0], ⟨3, 0⟩) := by
    have h := GB_held c 20 3 (by decide)
    rw [if_pos rfl] at h
    simp only [runBtns, h]
  rw [runBtns_append, hpre, runBtns_append, hmid, hlast]
  simp

/-- witness for C7's theorem at `c = 2`, `m = 1` -/
theorem GetButtons_hold_once_wit :
    runBtns ⟨3, 0⟩ (List.replicate 21 2 ++ (List.replicate 1 2 ++ [3]))
      = (List.replicate 20 0
           ++ ((BUTTON_HOLD ||| ((2 &&& 3) ^^^ 255)) :: (List.replicate 1 0 ++ [0])),
         ⟨3, 0⟩) :=
  (GetButtons_hold_once 2 1 (by norm_num)).1

/-- C10: the hold event is `BUTTON_HOLD ||| ~(curState & 3)` over 8 bits: bits
2, 3, 5, 6, 7 are always set along with the `BUTTON_HOLD` bit 4, and the
`BUTTON_LEFT`/`BUTTON_RIGHT` bits are set exactly for the held (low-reading)
buttons; in particular the event never equals `BUTTON_HOLD ||| BUTTON_LEFT`
or `BUTTON_HOLD ||| BUTTON_RIGHT`, so callers must mask, and a masked test
such as `buttons &&& BUTTON_LEFT ≠ 0` succeeds for a left hold exactly when
the left line read low. -/
theorem GetButtons_hold_event (p r cur : Nat) (hcur : cur < 4)
    (hr : r < REPEAT_THRESHOLD) (heq : cur = p) (h3 : cur ≠ 3)
    (hth : r + 1 = REPEAT_THRESHOLD) :
    (GetButtons ⟨p, r⟩ cur).2 = BUTTON_HOLD ||| ((cur &&& 3) ^^^ 255)
    ∧ ((GetButtons ⟨p, r⟩ cur).2).testBit 4 = true
    ∧ ((GetButtons ⟨p, r⟩ cur).2).testBit 2 = true
    ∧ ((GetButtons ⟨p, r⟩ cur).2).testBit 3 = true
    ∧ ((GetButtons ⟨p, r⟩ cur).2).testBit 5 = true
    ∧ ((GetButtons ⟨p, r⟩ cur).2).testBit 6 = true
    ∧ ((GetButtons ⟨p, r⟩ cur).2).testBit 7 = true
    ∧ (((GetButtons ⟨p, r⟩ cur).2) &&& BUTTON_LEFT ≠ 0 ↔ cur.testBit 0 = false)
    ∧ (((GetButtons ⟨p, r⟩ cur).2) &&& BUTTON_RIGHT ≠ 0 ↔ cur.testBit 1 = false)
    ∧ (GetButtons ⟨p, r⟩ cur).2 ≠ BUTTON_HOLD ||| BUTTON_LEFT
    ∧ (GetButtons ⟨p, r⟩ cur).2 ≠ BUTTON_HOLD ||| BUTTON_RIGHT := by
  have hev : (GetButtons ⟨p, r⟩ cur).2 = BUTTON_HOLD ||| ((cur &&& 3) ^^^ 255) := by
    rw [GB_same p r cur hr heq h3]
    exact if_pos hth
  rw [hev]
  refine ⟨rfl, ?_⟩
  interval_cases cur
  · exact ⟨by decide, by decide, by decide, by decide, by decide, by decide, by decide,
      by decide, by decide, by decide⟩
  · exact ⟨by decide, by decide, by decide, by decide, by decide, by decide, by decide,
      by decide, by decide, by decide⟩
  · exact ⟨by decide, by decide, by decide, by decide, by decide, by decide, by decide,
      by decide, by decide, by decide⟩
  · exact absurd rfl h3

/-- witness for C10's theorem: a left hold (`cur = 2`) at the threshold -/
theorem GetButtons_hold_event_wit :
    (GetButtons ⟨2, 19⟩ 2).2 = BUTTON_HOLD ||| ((2 &&& 3) ^^^ 255) :=
  (GetButtons_hold_event 2 19 2 (by norm_num) (by decide) rfl (by norm_num) (by decide)).1

/-! ## Column-scanner interrupt (matrix.c lines 84-116)

The ISR is modelled by the ordered list of port operations it performs:
latch edges, shift-register clock edges, data-line levels and PORTD writes.
All outputs are active-low (`0 = on`): `DATA_0/DATA_1` drive the line
low/high. -/

inductive POp where
  | latch (b : Bool)
  | sck (b : Bool)
  | data (b : Bool)
  | portD (v : Nat)
deriving DecidableEq

/-- the predicate recognizing data-line operations -/
def isData : POp → Bool
  | POp.data _ => true
  | _ => false

/-- The shift loop: for each of `n` iterations, `SCK_0()`, then `DATA_0()`
when the current LSB of `c` is set else `DATA_1()`, then `SCK_1()`, then
`c >>= 1`. -/
def shiftLoop : Nat → Nat → List POp
  | _, 0 => []
  | c, n + 1 =>
    POp.sck false :: (if c &&& 1 = 1 then POp.data false else POp.data true)
      :: POp.sck true :: shiftLoop (c >>> 1) n

/-- the frame-buffer index scanned this tick: `(fb_base + col) & 0x0F` -/
def fbOff (fb_base : Nat) (col : Fin 8) : Fin 16 :=
  ⟨(fb_base + col.val) % 16, Nat.mod_lt _ (by norm_num)⟩

/-- One tick of `ISR(TIMER0_COMPA_vect)`: the port operations in program
order (latch low; 16 shift iterations; final `SCK_0`; blank the columns;
latch high; energize column line `0x80 >> col`). -/
def isrTrace (framebuf : Fin 16 → Nat) (fb_base : Nat) (col : Fin 8) : List POp :=
  let c := framebuf (fbOff fb_base col)
  POp.latch false :: (shiftLoop c 16 ++
    [POp.sck false, POp.portD 0, POp.latch true, POp.portD (128 >>> col.val)])

/-- the sequence of data-line levels clocked out, in order -/
def dataLevels (ops : List POp) : List Bool :=
  ops.filterMap (fun op => match op with | POp.data b => some b | _ => none)

/-- Claim-side (spec-worded) serialization order: most significant bit first
(bit 15 on the first clock), with the same active-low level encoding. -/
def msbFirstLevels (c : Nat) : List Bool :=
  (List.range 16).map (fun t => decide ((c >>> (15 - t)) % 2 = 0))

theorem dataLevels_cons_step (c n : Nat) :
    dataLevels (shiftLoop c (n + 1))
      = decide (c % 2 = 0) :: dataLevels (shiftLoop (c >>> 1) n) := by
  simp only [shiftLoop, dataLevels, List.filterMap_cons]
  rcases Nat.mod_two_eq_zero_or_one c with h | h
  · rw [if_neg (by rw [Nat.and_one_is_mod]; omega)]
    simp [h]
  · rw [if_pos (by rw [Nat.and_one_is_mod]; omega)]
    simp [h]

theorem dataLevels_shiftLoop :
    ∀ (n c : Nat), dataLevels (shiftLoop c n)
      = (List.range n).map (fun t => decide ((c >>> t) % 2 = 0))
  | 0, _ => rfl
  | n + 1, c => by
    rw [dataLevels_cons_step, dataLevels_shiftLoop n (c >>> 1)]
    have htail : (List.range n).map (fun t => decide (((c >>> 1) >>> t) % 2 = 0))
        = (List.range n).map (fun t => decide ((c >>> (t + 1)) % 2 = 0)) := by
      refine List.map_congr_left (fun t _ => ?_)
      have hsh : (c >>> 1) >>> t = c >>> (t + 1) := by
        rw [← Nat.shiftRight_add, Nat.add_comm]
      rw [hsh]
    rw [htail, List.range_succ_eq_map, List.map_cons, List.map_map]
    have hhead : decide ((c >>> 0) % 2 = 0) = decide (c % 2 = 0) := by
      rw [Nat.shiftRight_zero]
    rw [hhead]
    rfl

theorem shiftLoop_no_latch : ∀ (n c : Nat), POp.latch true ∉ shiftLoop c n
  | 0, _ => List.not_mem_nil _
  | n + 1, c => by
    simp only [shiftLoop, List.mem_cons]
    rintro (h | h | h | h)
    · exact POp.noConfusion h
    · split at h <;> exact POp.noConfusion h
    · exact POp.noConfusion h
    · exact shiftLoop_no_latch n (c >>> 1) h

theorem shiftLoop_data_count :
    ∀ (n c : Nat), (shiftLoop c n).countP isData = n
  | 0, _ => rfl
  | n + 1, c => by
    have ih := shiftLoop_data_count n (c >>> 1)
    by_cases hc : c &&& 1 = 1 <;>
    · rw [Nat.and_one_is_mod] at hc
      simp [shiftLoop, List.countP_cons, isData, hc, ih]

/-- C5 (amended): each tick serializes exactly the word at index
`(fb_base + col) mod 16`, least-significant-bit first (the data line is
driven low exactly when the bit is set, outputs being active-low), and the
latch is raised only after all 16 data bits have been clocked out (16 data
operations precede the latch-high edge and none follow it). -/
theorem isr_column_serialization (framebuf : Fin 16 → Nat) (fb_base : Nat) (col : Fin 8) :
    dataLevels (isrTrace framebuf fb_base col)
      = (List.range 16).map
          (fun t => decide ((framebuf (fbOff fb_base col) >>> t) % 2 = 0))
    ∧ ∃ l1 l2,
        isrTrace framebuf fb_base col = l1 ++ (POp.latch true :: l2)
        ∧ l1.countP isData = 16
        ∧ POp.latch true ∉ l1
        ∧ ∀ op ∈ l2, isData op = false ∧ ∀ b, op ≠ POp.sck b := by
  constructor
  · show dataLevels (POp.latch false :: (shiftLoop (framebuf (fbOff fb_base col)) 16 ++
        [POp.sck false, POp.portD 0, POp.latch true, POp.portD (128 >>> col.val)])) = _
    simp only [dataLevels, List.filterMap_cons, List.filterMap_append, List.filterMap_nil]
    rw [List.append_nil]
    exact dataLevels_shiftLoop 16 _
  · refine ⟨POp.latch false :: (shiftLoop (framebuf (fbOff fb_base col)) 16
        ++ [POp.sck false, POp.portD 0]),
      [POp.portD (128 >>> col.val)], ?_, ?_, ?_, ?_⟩
    · show POp.latch false :: (shiftLoop (framebuf (fbOff fb_base col)) 16 ++
          [POp.sck false, POp.portD 0, POp.latch true, POp.portD (128 >>> col.val)]) = _
      simp [List.append_assoc]
    · simp [List.countP_cons, List.countP_append, isData, shiftLoop_data_count]
    · have hs := shiftLoop_no_latch 16 (framebuf (fbOff fb_base col))
      simp [List.mem_cons, List.mem_append, hs]
    · intro op hop
      simp only [List.mem_singleton] at hop
      subst hop
      exact ⟨rfl, fun b => by simp⟩

/-- a frame buffer whose word 0 has only the least significant bit set -/
def fbOne : Fin 16 → Nat := fun k => if k = 0 then 1 else 0

/-- C5 counterexample: the serialization is not most-significant-bit-first:
for the word 1 the actual data-line sequence (LSB first) differs from the
claimed MSB-first sequence. -/
theorem isr_msb_first_cex :
    dataLevels (isrTrace fbOne 0 0) ≠ msbFirstLevels (fbOne (fbOff 0 0)) := by
  decide

/-! ## Fade controller (matrix.c lines 124-133 and 440-469)

The fade handling at the bottom of `do_life`'s loop: `fade` is a uint8
(arithmetic mod 256), `df` an int8 taking only the values 2, -2 and 0 in the
program.  Fading in adds `df` while `fade < FADE_BRIGHT`, else disengages
(`df = 0`, `FADE_OFF()`); fading out adds `df` (i.e. subtracts 2) while
`fade > -df`, else breaks out of the session loop. -/

def REFRESH : Nat := 157

def FADE_DARK : Nat := 1

def FADE_BRIGHT : Nat := REFRESH - 1

/-- one pass of the fade-handling block: given `(df, fade)` returns the new
`df`, the new `fade`, and whether the session loop `break`s this tick -/
def fadeTick (df : Int) (fade : Nat) : Int × Nat × Bool :=
  if 0 < df then
    if fade < FADE_BRIGHT then (df, (((fade : Int) + df) % 256).toNat, false)
    else (0, fade, false)
  else if df < 0 then
    if (fade : Int) > -df then (df, (((fade : Int) + df) % 256).toNat, false)
    else (df, fade, true)
  else (df, fade, false)

/-- iterate the fade-handling block `n` times, tracking `(df, fade)` -/
def fadeIter : Nat → Int × Nat → Int × Nat
  | 0, s => s
  | n + 1, s => fadeIter n ((fadeTick s.1 s.2).1, (fadeTick s.1 s.2).2.1)

/-- C6 counterexample: starting a fade-in at the dark bound and stepping
every tick, the 78th tick leaves the fade level at 157, strictly above
`FADE_BRIGHT = 156`: the level is not confined to
`[FADE_DARK, FADE_BRIGHT]`, and the fade-in never lands exactly on the
bright bound (odd start, steps of 2). -/
theorem fade_bounds_cex :
    (fadeIter 78 (2, FADE_DARK)).2 = 157 ∧ ¬((fadeIter 78 (2, FADE_DARK)).2 ≤ FADE_BRIGHT) := by
  refine ⟨by decide, by decide⟩

/-- C6 (amended): with `df ∈ {2, 0, -2}` the fade level stays inside
`[FADE_DARK, REFRESH]` (one above `FADE_BRIGHT`, since the +2 steps from the
odd dark bound skip 156 and stop at 157), moving by exactly `df` per active
tick while strictly inside the stepping guard; fade-in from the dark bound
reaches 157 after 78 ticks and the next tick disengages (`df = 0`); fade-out
from 157 reaches exactly `FADE_DARK` after 78 ticks and the next tick ends
the session. -/
theorem fade_bounded (df : Int) (fade : Nat)
    (hdf : df = 2 ∨ df = -2 ∨ df = 0) (hlo : FADE_DARK ≤ fade) (hhi : fade ≤ REFRESH) :
    (FADE_DARK ≤ (fadeTick df fade).2.1 ∧ (fadeTick df fade).2.1 ≤ REFRESH
      ∧ ((fadeTick df fade).1 = 2 ∨ (fadeTick df fade).1 = -2 ∨ (fadeTick df fade).1 = 0))
    ∧ fadeIter 78 (2, FADE_DARK) = (2, 157)
    ∧ (fadeTick 2 157).1 = 0
    ∧ fadeIter 78 (-2, 157) = (-2, FADE_DARK)
    ∧ (fadeTick (-2) FADE_DARK).2.2 = true := by
  refine ⟨?_, by decide, by decide, by decide, by decide⟩
  have hR : REFRESH = 157 := rfl
  have hB : FADE_BRIGHT = 156 := rfl
  have hD : FADE_DARK = 1 := rfl
  rw [hD] at hlo
  rw [hR] at hhi
  rw [hD, hR]
  rcases hdf with h | h | h <;> subst h
  · simp only [fadeTick]
    rw [if_pos (by norm_num)]
    by_cases hf : fade < FADE_BRIGHT
    · rw [hB] at hf
      rw [if_pos (by rw [hB]; exact hf)]
      dsimp only
      refine ⟨by omega, by omega, Or.inl rfl⟩
    · rw [if_neg hf]
      rw [hB] at hf
      dsimp only
      refine ⟨by omega, by omega, Or.inr (Or.inr rfl)⟩
  · simp only [fadeTick]
    rw [if_neg (by norm_num), if_pos (by norm_num)]
    by_cases hf : (fade : Int) > -(-2 : Int)
    · rw [if_pos hf]
      dsimp only
      refine ⟨by omega, by omega, Or.inr (Or.inl rfl)⟩
    · rw [if_neg hf]
      dsimp only
      refine ⟨by omega, by omega, Or.inr (Or.inl rfl)⟩
  · simp only [fadeTick]
    rw [if_neg (by norm_num), if_neg (by norm_num)]
    dsimp only
    refine ⟨by omega, by omega, Or.inr (Or.inr rfl)⟩

/-- witness for the amended C6 theorem at `df = 2`, `fade = 155` -/
theorem fade_bounded_wit :
    FADE_DARK ≤ (fadeTick 2 155).2.1 ∧ (fadeTick 2 155).2.1 ≤ REFRESH
      ∧ ((fadeTick 2 155).1 = 2 ∨ (fadeTick 2 155).1 = -2 ∨ (fadeTick 2 155).1 = 0) :=
  (fade_bounded 2 155 (Or.inl rfl) (by decide) (by decide)).1

/-! ## Quote picker (matrix.c lines 349-371)

`hello_world` keeps a static 64-bit used-mask `maskus`; a pick draws a
random byte, masks it to [0,64), and advances circularly to the next index
whose mask bit is still set, then clears that bit.  The C scan loop
(`for(;;) { bit = 1ULL << r; if (maskus & bit) break; r = (r+1) & 63; }`)
is embedded with fuel 64, which suffices exactly when the mask has a set
bit below 64 - the situation in which the C loop terminates at all; the
invariant proved below guarantees it on every reachable call. -/

/-- the scan loop: first index at or circularly after `r` whose bit is set -/
def findUnused (m : Nat) : Nat → Nat → Nat
  | r, 0 => r
  | r, fuel + 1 => if m &&& (1 <<< r) ≠ 0 then r else findUnused m ((r + 1) &&& 63) fuel

/-- One call of the quote-picking logic of `hello_world`: a zero `maskus`
is reset to all-ones (`~0ULL`), the random byte is masked with 63, the scan
finds the index, and its bit is cleared (`maskus &= ~bit`, the complement
taken within 64 bits). -/
def pickQuote (maskus rand : Nat) : Nat × Nat :=
  let m := if maskus = 0 then 2 ^ 64 - 1 else maskus
  let r := findUnused m (rand &&& 63) 64
  (r, m &&& ((2 ^ 64 - 1) ^^^ (1 <<< r)))

/-- iterate the picker from a starting mask over a list of random bytes,
collecting the chosen quote indices -/
def runPicker : Nat → List Nat → List Nat × Nat
  | m, [] => ([], m)
  | m, rand :: rs =>
    let p := pickQuote m rand
    let q := runPicker p.2 rs
    (p.1 :: q.1, q.2)

theorem and63_eq_mod64 (x : Nat) : x &&& 63 = x % 64 := by
  apply Nat.eq_of_testBit_eq
  intro t
  have h63 : (63 : Nat) = 2 ^ 6 - 1 := by norm_num
  have h64 : (64 : Nat) = 2 ^ 6 := by norm_num
  rw [Nat.testBit_and, h63, Nat.testBit_two_pow_sub_one, h64, Nat.testBit_mod_two_pow,
    Bool.and_comm]

theorem and_two_pow_ne_zero (m r : Nat) :
    m &&& (1 <<< r) ≠ 0 ↔ m.testBit r = true := by
  rw [Nat.one_shiftLeft, Nat.and_two_pow]
  rcases hb : m.testBit r with _ | _
  · simp [hb]
  · have h2 : 0 < (2 : Nat) ^ r := Nat.pow_pos (by norm_num)
    simp [hb, h2.ne']

theorem findUnused_spec :
    ∀ (fuel : Nat) (m r : Nat), r < 64 →
      (∃ j, j < fuel ∧ m.testBit ((r + j) % 64) = true) →
      m.testBit (findUnused m r fuel) = true ∧ findUnused m r fuel < 64
  | 0, m, r, _, hex => absurd hex (by rintro ⟨j, hj, _⟩; omega)
  | fuel + 1, m, r, hr, hex => by
    by_cases hbit : m &&& (1 <<< r) ≠ 0
    · rw [findUnused, if_pos hbit]
      exact ⟨(and_two_pow_ne_zero m r).mp hbit, hr⟩
    · rw [findUnused, if_neg hbit]
      have hfalse : m.testBit r = false := by
        rcases hb : m.testBit r with _ | _
        · rfl
        · exact absurd ((and_two_pow_ne_zero m r).mpr hb) hbit
      obtain ⟨j, hj, hjb⟩ := hex
      have hj0 : j ≠ 0 := by
        intro h0
        subst h0
        rw [Nat.add_zero, Nat.mod_eq_of_lt hr] at hjb
        rw [hfalse] at hjb
        exact Bool.noConfusion hjb
      have hr' : (r + 1) &&& 63 < 64 := by
        rw [and63_eq_mod64]
        omega
      refine findUnused_spec fuel m ((r + 1) &&& 63) hr' ⟨j - 1, by omega, ?_⟩
      rw [and63_eq_mod64, Nat.mod_add_mod]
      have he : r + 1 + (j - 1) = r + j := by omega
      rw [he]
      exact hjb

theorem exists_set_bit_window (m r0 b0 : Nat) (hr : r0 < 64) (hb : b0 < 64)
    (hbit : m.testBit b0 = true) :
    ∃ j, j < 64 ∧ m.testBit ((r0 + j) % 64) = true := by
  refine ⟨(b0 + 64 - r0) % 64, by omega, ?_⟩
  have he : (r0 + (b0 + 64 - r0) % 64) % 64 = b0 := by omega
  rw [he]
  exact hbit

theorem cleared_mask_testBit (m r' b : Nat) :
    (m &&& ((2 ^ 64 - 1) ^^^ (1 <<< r'))).testBit b
      = (m.testBit b && (decide (b < 64) ^^ decide (r' = b))) := by
  rw [Nat.testBit_and, Nat.testBit_xor, Nat.testBit_two_pow_sub_one, Nat.one_shiftLeft,
    Nat.testBit_two_pow]

/-- mask invariant: a bit is set exactly for the not-yet-chosen indices
below 64; every pick chooses a fresh index below 64 and clears its bit -/
theorem runPicker_spec :
    ∀ (rs : List Nat) (m : Nat) (chosen : List Nat),
      (∀ b, m.testBit b = true ↔ (b < 64 ∧ b ∉ chosen)) →
      chosen.Nodup → (∀ x ∈ chosen, x < 64) →
      chosen.length + rs.length ≤ 64 →
      (chosen ++ (runPicker m rs).1).Nodup
      ∧ (∀ x ∈ (runPicker m rs).1, x < 64)
      ∧ (runPicker m rs).1.length = rs.length
      ∧ (∀ b, (runPicker m rs).2.testBit b = true
            ↔ (b < 64 ∧ b ∉ chosen ++ (runPicker m rs).1))
  | [], m, chosen, hinv, hnd, hlt, _ => by
    refine ⟨by simpa [runPicker] using hnd, by simp [runPicker], rfl, ?_⟩
    intro b
    simpa [runPicker] using hinv b
  | rand :: rs, m, chosen, hinv, hnd, hlt, hlen => by
    have hlen' : chosen.length ≤ 63 := by
      simp only [List.length_cons] at hlen
      omega
    obtain ⟨b0, hb0lt, hb0notin⟩ : ∃ b0, b0 < 64 ∧ b0 ∉ chosen := by
      by_contra hno
      push_neg at hno
      have hsub : Finset.range 64 ⊆ chosen.toFinset := by
        intro b hb
        exact List.mem_toFinset.mpr (hno b (Finset.mem_range.mp hb))
      have hcard := Finset.card_le_card hsub
      rw [Finset.card_range] at hcard
      have htf : chosen.toFinset.card ≤ chosen.length := chosen.toFinset_card_le
      omega
    have hm0 : m ≠ 0 := by
      intro h0
      have hbit := (hinv b0).mpr ⟨hb0lt, hb0notin⟩
      rw [h0, Nat.zero_testBit] at hbit
      exact Bool.noConfusion hbit
    have hrand : rand &&& 63 < 64 := lt_of_le_of_lt Nat.and_le_right (by norm_num)
    have hex : ∃ j, j < 64 ∧ m.testBit (((rand &&& 63) + j) % 64) = true :=
      exists_set_bit_window m (rand &&& 63) b0 hrand hb0lt ((hinv b0).mpr ⟨hb0lt, hb0notin⟩)
    obtain ⟨hrbit, hrlt⟩ := findUnused_spec 64 m (rand &&& 63) hrand hex
    have hpq : pickQuote m rand
        = (findUnused m (rand &&& 63) 64,
           m &&& ((2 ^ 64 - 1) ^^^ (1 <<< findUnused m (rand &&& 63) 64))) := by
      simp only [pickQuote]
      rw [if_neg hm0]
    have hrnotin : findUnused m (rand &&& 63) 64 ∉ chosen := ((hinv _).mp hrbit).2
    have hinv' : ∀ b,
        (m &&& ((2 ^ 64 - 1) ^^^ (1 <<< findUnused m (rand &&& 63) 64))).testBit b = true
          ↔ (b < 64 ∧ b ∉ chosen ++ [findUnused m (rand &&& 63) 64]) := by
      intro b
      rw [cleared_mask_testBit]
      by_cases hrb : findUnused m (rand &&& 63) 64 = b
      · subst hrb
        simp [hrlt, List.mem_append, List.mem_singleton]
      · simp only [List.mem_append, List.mem_singleton]
        rcases hmb : m.testBit b with _ | _
        · constructor
          · intro hcontra
            exact Bool.noConfusion hcontra
          · intro hcontra
            have hres := (hinv b).mpr ⟨hcontra.1, fun hc => hcontra.2 (Or.inl hc)⟩
            rw [hmb] at hres
            exact hres
        · have hb64 : b < 64 := ((hinv b).mp hmb).1
          have hbnotin : b ∉ chosen := ((hinv b).mp hmb).2
          have hne : b ≠ findUnused m (rand &&& 63) 64 := fun h => hrb h.symm
          simp [hb64, hbnotin, hrb, hne]
    have hnd' : (chosen ++ [findUnused m (rand &&& 63) 64]).Nodup := by
      rw [List.nodup_append]
      refine ⟨hnd, List.nodup_singleton _, fun a ha hb => ?_⟩
      rw [List.mem_singleton.mp hb] at ha
      exact hrnotin ha
    have hlt' : ∀ x ∈ chosen ++ [findUnused m (rand &&& 63) 64], x < 64 := by
      intro x hx
      rcases List.mem_append.mp hx with h | h
      · exact hlt x h
      · rw [List.mem_singleton.mp h]
        exact hrlt
    have hlen'' : (chosen ++ [findUnused m (rand &&& 63) 64]).length + rs.length ≤ 64 := by
      simp only [List.length_append, List.length_singleton, List.length_cons,
        List.length_nil] at hlen ⊢
      omega
    have IH := runPicker_spec rs
      (m &&& ((2 ^ 64 - 1) ^^^ (1 <<< findUnused m (rand &&& 63) 64)))
      (chosen ++ [findUnused m (rand &&& 63) 64]) hinv' hnd' hlt' hlen''
    have hrun : runPicker m (rand :: rs)
        = (findUnused m (rand &&& 63) 64
            :: (runPicker (m &&& ((2 ^ 64 - 1) ^^^ (1 <<< findUnused m (rand &&& 63) 64))) rs).1,
           (runPicker (m &&& ((2 ^ 64 - 1) ^^^ (1 <<< findUnused m (rand &&& 63) 64))) rs).2) := by
      simp only [runPicker, hpq]
    rw [hrun]
    refine ⟨?_, ?_, ?_, ?_⟩
    · rw [List.append_cons]
      exact IH.1
    · intro x hx
      rcases List.mem_cons.mp hx with h | h
      · rw [h]
        exact hrlt
      · exact IH.2.1 x h
    · simp only [List.length_cons]
      rw [IH.2.2.1]
    · intro b
      rw [List.append_cons]
      exact IH.2.2.2 b

/-- C8: starting from the initial zero mask, across 64 consecutive picks and
regardless of the random bytes drawn, every quote index in [0,64) is chosen
exactly once, and the used-mask is exhausted (zero) afterwards, so only then
does the next call reset it to all-ones. -/
theorem hello_world_picker (rs : List Nat) (hlen : rs.length = 64) :
    (∀ q, q < 64 → (runPicker 0 rs).1.count q = 1)
    ∧ (runPicker 0 rs).2 = 0 := by
  have hfull : ∀ b, ((2 : Nat) ^ 64 - 1).testBit b = true ↔ (b < 64 ∧ b ∉ ([] : List Nat)) := by
    intro b
    rw [Nat.testBit_two_pow_sub_one]
    simp
  have hzero : runPicker 0 rs = runPicker (2 ^ 64 - 1) rs := by
    cases rs with
    | nil => simp at hlen
    | cons x xs =>
      simp only [runPicker]
      have hpq : pickQuote 0 x = pickQuote (2 ^ 64 - 1) x := by
        simp only [pickQuote]
        norm_num
      rw [hpq]
  have hspec := runPicker_spec rs (2 ^ 64 - 1) [] hfull List.nodup_nil (by simp) (by simp [hlen])
  rw [hzero]
  obtain ⟨hnd, hall, hlength, hmask⟩ := hspec
  rw [List.nil_append] at hnd
  have hmem : ∀ q, q < 64 → q ∈ (runPicker (2 ^ 64 - 1) rs).1 := by
    intro q hq
    have hcard : (runPicker (2 ^ 64 - 1) rs).1.toFinset.card = 64 := by
      rw [List.toFinset_card_of_nodup hnd, hlength, hlen]
    have hsub : (runPicker (2 ^ 64 - 1) rs).1.toFinset ⊆ Finset.range 64 := by
      intro a ha
      exact Finset.mem_range.mpr (hall a (List.mem_toFinset.mp ha))
    have heq : (runPicker (2 ^ 64 - 1) rs).1.toFinset = Finset.range 64 :=
      Finset.eq_of_subset_of_card_le hsub (by rw [hcard, Finset.card_range])
    have hq' : q ∈ (runPicker (2 ^ 64 - 1) rs).1.toFinset := by
      rw [heq]
      exact Finset.mem_range.mpr hq
    exact List.mem_toFinset.mp hq'
  constructor
  · intro q hq
    have h1 : (runPicker (2 ^ 64 - 1) rs).1.count q ≤ 1 := List.nodup_iff_count_le_one.mp hnd q
    have h2 : 0 < (runPicker (2 ^ 64 - 1) rs).1.count q := List.count_pos_iff.mpr (hmem q hq)
    omega
  · apply Nat.eq_of_testBit_eq
    intro b
    rw [Nat.zero_testBit]
    rcases hb : (runPicker (2 ^ 64 - 1) rs).2.testBit b with _ | _
    · rfl
    · have hbb := (hmask b).mp hb
      rw [List.nil_append] at hbb
      exact absurd (hmem b hbb.1) hbb.2

/-- witness for C8's theorem: 64 picks with all random bytes zero -/
theorem hello_world_picker_wit :
    (runPicker 0 (List.replicate 64 0)).1.count 5 = 1 :=
  (hello_world_picker (List.replicate 64 0) (by simp)).1 5 (by norm_num)

/-! ## Frame effect of `life` (matrix.c lines 175-233 and 419-437)

`life` receives two pointers into the 16-word `framebuf`; `do_life` passes
`&framebuf[fb_base]` and `&framebuf[fb_base ^ 8]` with `fb_base ∈ {0, 8}`.
To settle which words the function touches, the same code is embedded once
more over an explicit word-addressed memory `mem : Nat → Nat` with source
and destination base addresses: neighbor reads go through the source base,
writes through the destination base, in program order. -/

/-- a single word write -/
def wr (mem : Nat → Nat) (a v : Nat) : Nat → Nat := fun x => if x = a then v else mem x

/-- the inner-loop body for cell `(i, j)`: compute `nextstate` from the
source region of the current memory, then `dst[i] &= ~(3<<j)` and
`dst[i] |= nextstate << j` -/
def lifeMemCell (mem : Nat → Nat) (s d i j : Nat) : Nat → Nat :=
  let curstate := (mem (s + i) >>> j) &&& 3
  let L := (i + 7) % 8
  let R := (i + 1) % 8
  let U := (j + 14) % 16
  let D := (j + 2) % 16
  let neighbors :=
    b2n (mem (s + L) &&& (3 <<< U) ≠ 0) + b2n (mem (s + L) &&& (3 <<< j) ≠ 0) +
    b2n (mem (s + L) &&& (3 <<< D) ≠ 0) + b2n (mem (s + i) &&& (3 <<< U) ≠ 0) +
    b2n (mem (s + i) &&& (3 <<< D) ≠ 0) + b2n (mem (s + R) &&& (3 <<< U) ≠ 0) +
    b2n (mem (s + R) &&& (3 <<< j) ≠ 0) + b2n (mem (s + R) &&& (3 <<< D) ≠ 0)
  let nextstate :=
    if curstate ≠ 0 then
      if neighbors < 2 ∨ neighbors > 3 then 0
      else if curstate = 1 then 3
      else 2
    else if neighbors = 3 then 1
    else 0
  let m1 := wr mem (d + i) (mem (d + i) &&& (65535 ^^^ (3 <<< j)))
  wr m1 (d + i) (m1 (d + i) ||| (nextstate <<< j))

/-- one column pass: the inner loop over `j = 0, 2, ..., 14` -/
def lifeMemCol (mem : Nat → Nat) (s d i : Nat) : Nat → Nat :=
  evens.foldl (fun m j => lifeMemCell m s d i j) mem

/-- the per-column step of the outer loop, also tracking `(ret, deadcols)` -/
def lifeMemStep (s d : Nat) (p : (Nat → Nat) × Nat × Nat) (i : Nat) :
    (Nat → Nat) × Nat × Nat :=
  let m := lifeMemCol p.1 s d i
  let colstate := if m (d + i) = 0 then DEAD
    else if m (d + i) = m (s + i) then STEADY else ACTIVE
  (m, max p.2.1 colstate, p.2.2 + b2n (colstate = DEAD))

/-- `life(src, dst)` over explicit memory: the final memory and the
returned classification -/
def lifeMem (mem : Nat → Nat) (s d : Nat) : (Nat → Nat) × Nat :=
  let q := (List.range 8).foldl (lifeMemStep s d) (mem, DEAD, 0)
  (q.1, if q.2.2 = 7 then STEADY else q.2.1)

theorem lifeMemCell_frame (mem : Nat → Nat) (s d i j a : Nat) (ha : a ≠ d + i) :
    lifeMemCell mem s d i j a = mem a := by
  simp only [lifeMemCell, wr]
  rw [if_neg ha, if_neg ha]

theorem lifeMemCol_frame (s d i a : Nat) (ha : a ≠ d + i) :
    ∀ (js : List Nat) (mem : Nat → Nat),
      js.foldl (fun m j => lifeMemCell m s d i j) mem a = mem a
  | [], _ => rfl
  | j :: js, mem => by
    rw [List.foldl_cons, lifeMemCol_frame s d i a ha js _,
      lifeMemCell_frame mem s d i j a ha]

theorem foldl_lifeMemStep_frame (s d a : Nat) :
    ∀ (l : List Nat) (p : (Nat → Nat) × Nat × Nat), (∀ i ∈ l, a ≠ d + i) →
      ((l.foldl (lifeMemStep s d) p).1) a = p.1 a
  | [], _, _ => rfl
  | i :: l, p, hl => by
    rw [List.foldl_cons,
      foldl_lifeMemStep_frame s d a l _ (fun i' h => hl i' (List.mem_cons_of_mem _ h))]
    show lifeMemCol p.1 s d i a = p.1 a
    exact lifeMemCol_frame s d i a (hl i (List.mem_cons_self _ _)) evens p.1

/-- C9: `life` writes only the 8 destination words: every address outside
the destination region is unchanged; with disjoint source and destination
regions the source generation is bit-for-bit unchanged; in particular, as
called from `do_life` with bases 0 and 8 (either order), the visible half
of the frame buffer is never modified. -/
theorem life_frame_effect (mem : Nat → Nat) (s d : Nat)
    (hdisj : ∀ k l, k < 8 → l < 8 → s + k ≠ d + l) :
    (∀ a, (∀ k, k < 8 → a ≠ d + k) → (lifeMem mem s d).1 a = mem a)
    ∧ (∀ k, k < 8 → (lifeMem mem s d).1 (s + k) = mem (s + k))
    ∧ (∀ k, k < 8 → (lifeMem mem 0 8).1 k = mem k)
    ∧ (∀ k, k < 8 → (lifeMem mem 8 0).1 (8 + k) = mem (8 + k)) := by
  have hmain : ∀ (s' d' : Nat) (a : Nat), (∀ k, k < 8 → a ≠ d' + k) →
      (lifeMem mem s' d').1 a = mem a := by
    intro s' d' a hk
    show ((List.range 8).foldl (lifeMemStep s' d') (mem, DEAD, 0)).1 a = mem a
    exact foldl_lifeMemStep_frame s' d' a (List.range 8) (mem, DEAD, 0)
      (fun i hi => hk i (List.mem_range.mp hi))
  refine ⟨hmain s d, ?_, ?_, ?_⟩
  · intro k hk
    exact hmain s d (s + k) (fun l hl => hdisj k l hk hl)
  · intro k hk
    exact hmain 0 8 k (fun l hl => by omega)
  · intro k hk
    exact hmain 8 0 (8 + k) (fun l hl => by omega)

/-- witness for C9's theorem: bases 0 and 8, reading back address 3 of the
identity-valued memory -/
theorem life_frame_effect_wit : (lifeMem (fun a => a) 0 8).1 3 = 3 :=
  (life_frame_effect (fun a => a) 0 8 (by omega)).1 3 (by omega)
